import Mathlib

/-!
Shallow embedding of the stream library in src/lib/processing.h and proofs
about its adapters.  Each C++ iterator class is translated into a Lean state
structure with functions for its constructor, `operator*` (deref),
`operator++` (inc) and `getIsEnd`; the collecting sinks (AsVector/Out) are
translated into collect functions that loop exactly as the C++ loops do.
Machine-level undefined behaviour (an unchecked out-of-range element access)
is modelled by `Option`/`none`; a thrown std::runtime_error by
`Except.error`.  C++ std::string is modelled by `String` where lines are
opaque, and by `List Char` where the code scans characters.
-/

namespace StlAdapters

/-! ## In-memory source: VectorDataStream::VectorIterator (processing.h 268-333)

The C++ iterator stores a pointer to the vector and an index.  We represent
the pair (data, index) by the remaining suffix `rem = data.drop index`:
`++index` becomes dropping the head, and the check `index >= data->size()`
after the increment becomes `rem.length <= 1` before it.  The constructor
taking a vector (line 273) sets `index = 0` and `is_end = false`
unconditionally — also for an empty vector. -/

structure VecSt (α : Type) where
  rem : List α
  is_end : Bool
deriving DecidableEq

/-- VectorIterator(const std::vector& data) (lines 273-274): index 0 and
`is_end` false, even when the vector is empty. -/
def vecBegin (xs : List α) : VecSt α := ⟨xs, false⟩

/-- VectorIterator::getIsEnd (lines 301-303). -/
def vecIsEnd (s : VecSt α) : Bool := s.is_end

/-- VectorIterator::operator* (lines 279-281): `return (*data)[index];` with
no end or bounds check.  An in-range access yields the element; an
out-of-range access is undefined behaviour (an unchecked read past the
buffer, not a raised error), modelled as `none`. -/
def vecDeref (s : VecSt α) : Option α := s.rem.head?

/-- VectorIterator::operator++ (lines 283-289): `++index;` then `is_end` is
set when `index >= data->size()`; it is never reset to false. -/
def vecInc (s : VecSt α) : VecSt α :=
  ⟨s.rem.tail, s.is_end || decide (s.rem.length ≤ 1)⟩

/-! ## Transform adapter collected by AsVector (processing.h 403-458, 914-929)

TransformedIterator stores the wrapped iterator; `operator*` (lines 414-416)
computes `transform_func(*it)` at the moment of the dereference (nothing is
prefetched), `operator++` only advances the wrapped iterator, and getIsEnd
delegates.  AsVector (lines 914-929) runs `while (it != end) { push(*it); ++it; }`,
where for a transformed in-memory source `it != end` reduces to the wrapped
VectorIterator not being at end.  To observe when a side-effecting transform
runs, the function is modelled as a state transformer `f : σ → α → α × σ`
and its state is threaded through the loop exactly where the C++ applies
`transform_func` — at each dereference. -/

def collectTransformed (f : σ → α → α × σ) (s : VecSt α) (st : σ) :
    Option (List α × σ) :=
  if s.is_end then some ([], st)
  else
    match h : s.rem with
    | [] => none  -- transform_func((*data)[index]) with index out of range: UB
    | x :: _ =>
      let p := f st x
      match collectTransformed f (vecInc s) p.2 with
      | none => none
      | some (ys, st2) => some (p.1 :: ys, st2)
termination_by s.rem.length
decreasing_by simp [vecInc, h]

/-- Modelled from the spec: `[f(x) for x in xs]` with `f` invoked exactly once
per element, one element at a time in stream order, the state of a
side-effecting `f` threaded left to right. -/
def statefulMap (f : σ → α → α × σ) : List α → σ → List α × σ
  | [], st => ([], st)
  | x :: xs, st =>
    let p := f st x
    let q := statefulMap f xs p.2
    (p.1 :: q.1, q.2)

/-! ## File-content source: FileContentStream::FileIterator (processing.h 155-266)

A path of the upstream path stream is modelled by what opening it yields:
`none` when the ifstream fails to open, `some ls` where `ls` is the list of
successive std::getline results (each possibly the empty string; getline
fails once they are exhausted).  The path iterator pair (path_it, path_end)
is modelled by the list of remaining paths: the loop guard
`!path_it->getIsEnd() && *path_it != *path_end` reduces to that list being
non-empty (`*path_it != *path_end` compares against a null end iterator and
is true whenever path_it is not at end). -/

structure FileIt where
  paths : List (Option (List String))
  current_file : Option (List String)
  current_line : String
  is_end : Bool
deriving DecidableEq

/-- FileContentStream::FileIterator::open_next_file (lines 225-247),
translated clause by clause.  `current_line` is cleared on entry.  While
paths remain: open the head path; if the open fails, `++*path_it` once and
continue.  If the open succeeds, `++*path_it`, `is_end = false`, and getline
the first line: a non-empty first line returns with the file held open.
Otherwise (getline failed — empty file — or first line empty) control falls
through to `current_file.reset(); ++*path_it;`, which drops the rest of that
file AND advances the path iterator a second time, discarding the next
pending path unopened.  When no path remains, `is_end = true`. -/
def openNextFile : List (Option (List String)) → FileIt
  | [] => ⟨[], none, "", true⟩
  | none :: rest => openNextFile rest
  | some [] :: rest => openNextFile rest.tail
  | some (l :: ls) :: rest =>
    if l = "" then openNextFile rest.tail
    else ⟨rest, some ls, l, false⟩
termination_by ps => ps.length
decreasing_by
  all_goals simp_wf
  all_goals try simp [List.length_tail]
  all_goals omega

/-- FileIterator construction from a begin path iterator (lines 171-177):
open_next_file positions the iterator on the first line it will emit. -/
def fcBegin (paths : List (Option (List String))) : FileIt := openNextFile paths

/-- FileIterator::getIsEnd (lines 220-222). -/
def fcIsEnd (s : FileIt) : Bool := s.is_end

/-- FileIterator::operator* (lines 179-185): throws std::runtime_error when
`is_end` or no open file; otherwise returns `current_line` (the C++ ternary
`current_line.empty() ? "" : current_line` returns current_line either way). -/
def fcDeref (s : FileIt) : Except String String :=
  if s.is_end = true ∨ s.current_file = none then
    Except.error "Attempted to dereference invalid file iterator"
  else Except.ok s.current_line

/-- FileIterator::operator++ (lines 187-196): a no-op at end; otherwise
getline the next line into `current_line` — WITHOUT any empty-line check —
and on getline failure reset the file and call open_next_file. -/
def fcInc (s : FileIt) : FileIt :=
  if s.is_end then s
  else
    match s.current_file with
    | some (l :: ls) => { s with current_file := some ls, current_line := l }
    | some [] => openNextFile s.paths
    | none => openNextFile s.paths  -- unreachable: no open file only at end

/-- Weight of the pending paths, for termination of the collect loop. -/
def pathsWeight : List (Option (List String)) → Nat
  | [] => 0
  | none :: rest => 1 + pathsWeight rest
  | some ls :: rest => 2 + ls.length + pathsWeight rest

/-- Weight of the open file, for termination of the collect loop. -/
def fileWeight : Option (List String) → Nat
  | none => 0
  | some ls => 1 + ls.length

/-- Termination measure for fcCollect. -/
def fcMeasure (s : FileIt) : Nat := pathsWeight s.paths + fileWeight s.current_file

/-- The sink loop (AsVector, lines 914-929) over the file-content source:
`while (it != end) { push(*it); ++it; }` where `it != end` reduces to
`!is_end` (lines 198-214: two iterators compare equal when both are at end).
A deref that throws is propagated as `none`. -/
def fcCollect (s : FileIt) : Option (List String) :=
  if h1 : s.is_end then some []
  else
    match h2 : fcDeref s with
    | Except.error _ => none
    | Except.ok l => (fcCollect (fcInc s)).map (l :: ·)
termination_by fcMeasure s
decreasing_by
  have htail : ∀ l : List (Option (List String)), pathsWeight l.tail ≤ pathsWeight l := by
    intro l
    cases l with
    | nil => simp [pathsWeight]
    | cons x t => cases x <;> simp [pathsWeight]
  have key : ∀ ps : List (Option (List String)),
      pathsWeight (openNextFile ps).paths + fileWeight (openNextFile ps).current_file
        ≤ pathsWeight ps := by
    intro ps
    induction ps using openNextFile.induct with
    | case1 => simp [openNextFile, pathsWeight, fileWeight]
    | case2 rest ih =>
      rw [openNextFile]
      exact le_trans ih (by simp [pathsWeight])
    | case3 rest ih =>
      rw [openNextFile]
      exact le_trans ih (le_trans (htail rest) (by simp [pathsWeight]))
    | case4 ls rest ih =>
      rw [openNextFile]
      rw [if_pos rfl]
      exact le_trans ih (le_trans (htail rest) (by simp [pathsWeight]))
    | case5 l ls rest hl =>
      rw [openNextFile, if_neg hl]
      simp [pathsWeight, fileWeight]
      omega
  unfold fcDeref at h2
  split at h2
  · simp at h2
  · rename_i hcond
    unfold fcMeasure fcInc
    rw [if_neg h1]
    cases hcf : s.current_file with
    | none => exact absurd (Or.inr hcf) hcond
    | some ls =>
      cases ls with
      | nil =>
        exact lt_of_le_of_lt (key s.paths) (by simp [fileWeight])
      | cons a as =>
        simp only [fileWeight, List.length_cons]
        omega

/-! ## Split adapter: SplitDataStream::SplitIterator (processing.h 460-544)

Text is modelled as `List Char`.  The upstream is an in-memory stream of
text elements, represented as for VectorIterator by the list of remaining
elements; the scan position `pos_in_line` is folded into the head element,
which always stands for its unconsumed suffix. -/

/-- The inner for-loop of skipToNext (lines 501-511) over one element,
starting from the scan position, with `acc` the token built so far
(`current_line`): a delimiter with a non-empty token returns the token and
the suffix after the delimiter (`++pos_in_line; return;`); a delimiter with
an empty token is skipped; any other character is appended to the token.
`Sum.inl (tok, rest)` is the mid-element return, `Sum.inr acc` falls off the
end of the element. -/
def scanLine (D : List Char) : List Char → List Char → (List Char × List Char) ⊕ List Char
  | [], acc => Sum.inr acc
  | c :: cs, acc =>
    if c ∈ D then
      if acc = [] then scanLine D cs acc else Sum.inl (acc, cs)
    else scanLine D cs (acc ++ [c])

structure SplitSt where
  elems : List (List Char)
  line : List Char
deriving DecidableEq

/-- SplitIterator::skipToNext (lines 496-520): clear `current_line`, then
while the upstream is not exhausted scan the current element; on falling off
an element, `++it; pos_in_line = 0;` and return if a token is in progress
(`if (!current_line.empty()) return;`), else continue with the next
element. -/
def skipToNext (D : List Char) : List (List Char) → SplitSt
  | [] => ⟨[], []⟩
  | e :: es =>
    match scanLine D e [] with
    | Sum.inl (tok, rest) => ⟨rest :: es, tok⟩
    | Sum.inr acc => if acc = [] then skipToNext D es else ⟨es, acc⟩

/-- SplitIterator construction (lines 465-470): skipToNext runs once. -/
def splitBegin (D : List Char) (elems : List (List Char)) : SplitSt := skipToNext D elems

/-- SplitIterator::operator* (lines 472-474). -/
def splitDeref (s : SplitSt) : List Char := s.line

/-- SplitIterator::operator++ (lines 476-479). -/
def splitInc (D : List Char) (s : SplitSt) : SplitSt := skipToNext D s.elems

/-- SplitIterator::getIsEnd (lines 491-493): upstream exhausted and no token
held. -/
def splitIsEnd (s : SplitSt) : Bool := s.elems.isEmpty && s.line.isEmpty

/-- Weight of the remaining upstream elements, for termination. -/
def splitNu : List (List Char) → Nat
  | [] => 0
  | e :: es => 2 * e.length + 2 + splitNu es

/-- Termination measure for splitCollect. -/
def splitMeasure (s : SplitSt) : Nat := splitNu s.elems + (if s.line = [] then 0 else 1)

/-- The sink loop over the split adapter: emit the held token, advance. -/
def splitCollect (D : List Char) (s : SplitSt) : List (List Char) :=
  if h1 : splitIsEnd s then [] else splitDeref s :: splitCollect D (splitInc D s)
termination_by splitMeasure s
decreasing_by
  have hscan : ∀ (e acc tok rest : List Char),
      scanLine D e acc = Sum.inl (tok, rest) → rest.length < e.length := by
    intro e
    induction e with
    | nil => intro acc tok rest h; simp [scanLine] at h
    | cons c cs ih =>
      intro acc tok rest h
      rw [scanLine] at h
      split at h
      · split at h
        · exact Nat.lt_succ_of_lt (ih _ _ _ h)
        · cases h; exact Nat.lt_succ_self _
      · exact Nat.lt_succ_of_lt (ih _ _ _ h)
  have key : ∀ es : List (List Char),
      splitMeasure (skipToNext D es) ≤ splitNu es ∧
        (es ≠ [] → splitMeasure (skipToNext D es) < splitNu es) := by
    intro es
    induction es with
    | nil =>
      exact ⟨by simp [skipToNext, splitMeasure, splitNu], fun h => absurd rfl h⟩
    | cons e es ih =>
      have hgoal : splitMeasure (skipToNext D (e :: es)) < splitNu (e :: es) := by
        rw [skipToNext]
        cases hsc : scanLine D e [] with
        | inl p =>
          obtain ⟨tok, rest⟩ := p
          have hlt := hscan e [] tok rest hsc
          simp only [splitMeasure, splitNu]
          split <;> omega
        | inr acc =>
          show splitMeasure (if acc = [] then skipToNext D es else ⟨es, acc⟩)
            < splitNu (e :: es)
          by_cases hacc : acc = []
          · rw [if_pos hacc]
            exact lt_of_le_of_lt ih.1 (by simp [splitNu])
          · rw [if_neg hacc]
            simp only [splitMeasure, splitNu, if_neg hacc]
            omega
      exact ⟨le_of_lt hgoal, fun _ => hgoal⟩
  cases hel : s.elems with
  | nil =>
    have hline : s.line ≠ [] := by
      intro hl
      exact h1 (by simp [splitIsEnd, hel, hl])
    unfold splitInc splitMeasure
    rw [hel, skipToNext]
    simp [splitNu, hline]
  | cons e es =>
    calc splitMeasure (splitInc D s) < splitNu s.elems := by
          unfold splitInc
          exact (key s.elems).2 (by rw [hel]; exact List.cons_ne_nil e es)
      _ ≤ splitMeasure s := by unfold splitMeasure; split <;> omega

/-- Modelled from the spec: the maximal non-empty runs of non-delimiter
characters of a single element, `acc` the run in progress. -/
def specTokensAux (D : List Char) (acc : List Char) : List Char → List (List Char)
  | [] => if acc = [] then [] else [acc]
  | c :: cs =>
    if c ∈ D then
      if acc = [] then specTokensAux D [] cs else acc :: specTokensAux D [] cs
    else specTokensAux D (acc ++ [c]) cs

/-- Modelled from the spec: the tokens of one element, scanned on its own. -/
def specTokens (D : List Char) (e : List Char) : List (List Char) := specTokensAux D [] e

/-! ## AggregateByKey (processing.h 546-626)

The constructor (lines 587-614) drains the upstream, keeping a map
`K → accumulator` (the unordered_map is modelled as a function since only
point lookups and updates are observable) and `key_order`, the keys in order
of first occurrence; then results are emitted in `key_order` order. -/

def aggLoop [DecidableEq K] (initial : A) (f : α → A → A) (key : α → K) :
    List α → (K → Option A) → List K → (K → Option A) × List K
  | [], m, order => (m, order)
  | x :: xs, m, order =>
    let k := key x
    let seeded := (m k).isSome
    let m1 : K → Option A := if seeded then m else fun q => if q = k then some initial else m q
    let order1 := if seeded then order else order ++ [k]
    let m2 : K → Option A := fun q => if q = k then some (f x ((m1 k).getD initial)) else m1 q
    aggLoop initial f key xs m2 order1

/-- AggregateByKeyDataStream constructor (lines 587-614): drain with aggLoop,
then emit `(key, aggregation_map[key])` for the keys in first-seen order. -/
def aggregateByKey [DecidableEq K] (initial : A) (f : α → A → A) (key : α → K)
    (xs : List α) : List (K × A) :=
  let r := aggLoop initial f key xs (fun _ => none) []
  r.2.map fun k => (k, (r.1 k).getD initial)

/-- Modelled from the spec: the keys of a list in order of first occurrence,
skipping those a predicate marks as already seen. -/
def firstOccurrenceFrom [DecidableEq K] (seen : K → Bool) : List K → List K
  | [] => []
  | k :: ks =>
    if seen k then firstOccurrenceFrom seen ks
    else k :: firstOccurrenceFrom (fun q => decide (q = k) || seen q) ks

/-- Modelled from the spec: the order of first occurrence of each key. -/
def firstOccurrenceOrder [DecidableEq K] (l : List K) : List K :=
  firstOccurrenceFrom (fun _ => false) l

/-- AggregateByKeyDataStream::Iterator state (lines 552-585): results and an
index. -/
structure AggSt (K A : Type) where
  results : List (K × A)
  index : Nat

/-- AggregateByKey Iterator::getIsEnd (lines 578-580). -/
def aggIsEnd (s : AggSt K A) : Bool := decide (s.results.length ≤ s.index)

/-- AggregateByKey Iterator::operator++ (lines 563-566). -/
def aggInc (s : AggSt K A) : AggSt K A := { s with index := s.index + 1 }

/-! ## Join adapters (processing.h 660-771, 1086-1119) -/

/-- KV (lines 1060-1070). -/
structure KV (K V : Type) where
  key : K
  value : V
deriving DecidableEq

/-- JoinResult (lines 660-668). -/
structure JoinResult (L R : Type) where
  left_value : L
  right_value : Option R
deriving DecidableEq

/-- JoinedDataStream::buildRightMap (lines 757-766): drain the right stream,
appending each value to its key's vector (`right_map[kv.key].push_back(kv.value)`);
per key the vector holds the right values in insertion order.  The
unordered_map is modelled as a function `K → List R` (lookup of an absent key
and lookup of an empty vector are indistinguishable downstream). -/
def buildRightMap [DecidableEq K] : List (KV K R) → (K → List R) → (K → List R)
  | [], m => m
  | kv :: rest, m =>
    buildRightMap rest (fun q => if q = kv.key then m q ++ [kv.value] else m q)

/-- JoinedDataStream::Iterator state (lines 675-740): the remaining left
elements (head = current), the cached `current_rights` vector and the index
into it. -/
structure JoinedSt (K L R : Type) where
  left : List (KV K L)
  rights : List R
  idx : Nat

/-- Iterator::advanceToNextValid (lines 722-733): when the left cursor is not
at end, cache the right-map entry of the current left key (an absent key
leaves the cache cleared); at end, nothing changes.  Both branches of the
C++ while body return, so the loop runs at most once. -/
def advanceToNextValid (rm : K → List R) (s : JoinedSt K L R) : JoinedSt K L R :=
  match s.left with
  | [] => s
  | l :: _ => { s with rights := rm l.key }

/-- JoinedDataStream::begin (lines 677-684, 748-750). -/
def joinedBegin (rm : K → List R) (lefts : List (KV K L)) : JoinedSt K L R :=
  advanceToNextValid rm ⟨lefts, [], 0⟩

/-- Iterator::getIsEnd (lines 717-719): delegates to the left cursor. -/
def joinedIsEnd (s : JoinedSt K L R) : Bool := s.left.isEmpty

/-- Iterator::operator* (lines 686-691): the current left paired with
nullopt when no rights are cached, else with `current_rights[idx]` — an
unchecked access, in range on every reachable state. -/
def joinedDeref (s : JoinedSt K L R) : Option (JoinResult (KV K L) R) :=
  match s.left with
  | [] => none  -- *left_it with the left cursor at end: UB
  | l :: _ =>
    if s.rights.isEmpty then some ⟨l, none⟩
    else (s.rights.get? s.idx).map fun r => ⟨l, some r⟩

/-- Iterator::operator++ (lines 693-704): step through the cached rights;
once exhausted, advance the left cursor, reset the index and re-cache. -/
def joinedInc (rm : K → List R) (s : JoinedSt K L R) : JoinedSt K L R :=
  if !s.rights.isEmpty && s.idx + 1 < s.rights.length then { s with idx := s.idx + 1 }
  else advanceToNextValid rm { s with left := s.left.tail, idx := 0 }

/-- The sink loop over the KV join (`while (it != end)`, equal iff both left
cursors are at end). -/
def joinedCollect (rm : K → List R) (s : JoinedSt K L R) :
    Option (List (JoinResult (KV K L) R)) :=
  if h1 : s.left.isEmpty then some []
  else
    match h2 : joinedDeref s with
    | none => none
    | some row => (joinedCollect rm (joinedInc rm s)).map (row :: ·)
termination_by (s.left.length, s.rights.length - s.idx)
decreasing_by
  have hleft : s.left ≠ [] := by
    intro h
    exact h1 (by simp [h])
  have hadv : ∀ t : JoinedSt K L R, (advanceToNextValid rm t).left = t.left := by
    intro t
    cases ht : t.left with
    | nil => simp [advanceToNextValid, ht]
    | cons a as => simp [advanceToNextValid, ht]
  unfold joinedInc
  split
  · rename_i hcond
    have hidx : s.idx + 1 < s.rights.length := by
      have := (Bool.and_eq_true_iff.mp hcond).2
      exact of_decide_eq_true this
    apply Prod.Lex.right
    show s.rights.length - (s.idx + 1) < s.rights.length - s.idx
    omega
  · apply Prod.Lex.left
    rw [hadv]
    show s.left.tail.length < s.left.length
    cases hsl : s.left with
    | nil => exact absurd hsl hleft
    | cons a as => simp [hsl]

/-- The keyed Join's multimap insertion (line 1096,
`right_map.emplace(rkey(val), val)`): libstdc++ links a node with an
equal key in front of the existing equal-key nodes, so equal_range yields
the values of one key in REVERSE insertion order; this is the behaviour of
the std::unordered_multimap the code compiles against. -/
def multimapEmplace [DecidableEq K] (m : K → List R) (k : K) (v : R) : K → List R :=
  fun q => if q = k then v :: m q else m q

/-- The right-drain loop of Join(right, lkey, rkey) (lines 1092-1098). -/
def buildRightMultimap [DecidableEq K] (rkey : R → K) : List R → (K → List R) → (K → List R)
  | [], m => m
  | v :: rest, m => buildRightMultimap rkey rest (multimapEmplace m (rkey v) v)

/-- The left loop of Join(right, lkey, rkey) (lines 1100-1115): for each left
element, equal_range of its key; an empty range adds `(lval, nullopt)`, else
one row per ranged right value, in the multimap's range order. -/
def joinKeyedLoop (rm : K → List R) (lkey : L → K) : List L → List (JoinResult L R)
  | [] => []
  | l :: ls =>
    (match rm (lkey l) with
     | [] => [⟨l, none⟩]
     | rs => rs.map fun r => ⟨l, some r⟩) ++ joinKeyedLoop rm lkey ls

/-- Join(right, lkey, rkey) (lines 1086-1119): drain the right stream into
the multimap, then run the left loop into an eager vector stream. -/
def joinKeyed [DecidableEq K] (lkey : L → K) (rkey : R → K) (rights : List R)
    (lefts : List L) : List (JoinResult L R) :=
  joinKeyedLoop (buildRightMultimap rkey rights (fun _ => [])) lkey lefts

/-- Modelled from the spec: the right values of the KV right stream whose key
is k, in right-stream insertion order. -/
def rightMatchesKV [DecidableEq K] (rights : List (KV K R)) (k : K) : List R :=
  (rights.filter fun kv => decide (kv.key = k)).map KV.value

/-- Modelled from the spec: the right elements whose derived key is k, in
right-stream insertion order. -/
def rightMatchesKeyed [DecidableEq K] (rkey : R → K) (rights : List R) (k : K) : List R :=
  rights.filter fun r => decide (rkey r = k)

/-- Modelled from the spec: the output rows of one left element given its
list of right matches — one row per match, or a single None row. -/
def joinRows (ms : List R) (l : L) : List (JoinResult L R) :=
  match ms with
  | [] => [⟨l, none⟩]
  | rs => rs.map fun r => ⟨l, some r⟩

/-! ## Filter adapter (processing.h 335-401), over an in-memory upstream -/

/-- FilteredIterator::skipInvalid (lines 373-377):
`while (!it.getIsEnd() && !predicate(*it)) ++it;`.  The deref inside the
guard is the unchecked VectorIterator one: `none` models the out-of-range
read of a non-end cursor with nothing left (UB). -/
def skipInvalid (p : α → Bool) (s : VecSt α) : Option (VecSt α) :=
  if s.is_end then some s
  else
    match h : s.rem with
    | [] => none  -- predicate((*data)[index]) with index out of range: UB
    | x :: _ => if p x then some s else skipInvalid p (vecInc s)
termination_by s.rem.length
decreasing_by simp [vecInc, h]

/-- FilteredIterator::getIsEnd (lines 368-370): delegates. -/
def filteredIsEnd (s : VecSt α) : Bool := vecIsEnd s

/-- FilteredIterator::operator++ (lines 352-356): advance then skipInvalid. -/
def filteredInc (p : α → Bool) (s : VecSt α) : Option (VecSt α) :=
  skipInvalid p (vecInc s)

/-! ## Transformed iterator end-flag delegation (processing.h 418-421, 433-435) -/

/-- TransformedIterator::getIsEnd (lines 433-435): delegates. -/
def transIsEnd (s : VecSt α) : Bool := vecIsEnd s

/-- TransformedIterator::operator++ (lines 418-421): advances the wrapped
iterator only. -/
def transInc (s : VecSt α) : VecSt α := vecInc s

/-! ## Directory source: DirStream::DirIterator (processing.h 67-153)

The filesystem walk is modelled by the list of entries it will visit, each
tagged with whether it is a regular file. -/

structure DirSt where
  entries : List (String × Bool)
  is_end : Bool

/-- DirIterator::skip_non_regular_files (lines 113-128): drop entries until a
regular file; at the end of the walk set `is_end = true` (never false). -/
def skipNonRegular : List (String × Bool) → Bool → DirSt
  | [], _ => ⟨[], true⟩
  | e :: es, b => if e.2 then ⟨e :: es, b⟩ else skipNonRegular es b

/-- DirIterator::getIsEnd (lines 108-110). -/
def dirIsEnd (s : DirSt) : Bool := s.is_end

/-- DirIterator::operator++ (lines 88-92): advance the walk, then skip
non-regular entries. -/
def dirInc (s : DirSt) : DirSt := skipNonRegular s.entries.tail s.is_end

/-! ## Theorems -/

/-- skip_non_regular_files never clears the end flag. -/
theorem skipNonRegular_keeps_end :
    ∀ (es : List (String × Bool)), (skipNonRegular es true).is_end = true := by
  intro es
  induction es with
  | nil => simp [skipNonRegular]
  | cons e es ih =>
    rw [skipNonRegular]
    split
    · rfl
    · exact ih

/-- C9: end-of-stream is monotone for every modelled stream kind: for the
in-memory cursor, the file-content cursor, the split cursor, the transformed
cursor, the filtered cursor, the aggregate cursor, the KV-join cursor and
the directory cursor, once the end flag reports true, one more advance still
reports true (and hence, by induction, every later query does). -/
theorem c9_end_is_monotone :
    (∀ (α : Type) (s : VecSt α), vecIsEnd s = true → vecIsEnd (vecInc s) = true) ∧
    (∀ s : FileIt, fcIsEnd s = true → fcIsEnd (fcInc s) = true) ∧
    (∀ (D : List Char) (s : SplitSt),
      splitIsEnd s = true → splitIsEnd (splitInc D s) = true) ∧
    (∀ (α : Type) (s : VecSt α), transIsEnd s = true → transIsEnd (transInc s) = true) ∧
    (∀ (α : Type) (p : α → Bool) (s : VecSt α), filteredIsEnd s = true →
      filteredInc p s = some (vecInc s) ∧ filteredIsEnd (vecInc s) = true) ∧
    (∀ (K A : Type) (s : AggSt K A), aggIsEnd s = true → aggIsEnd (aggInc s) = true) ∧
    (∀ (K L R : Type) (rm : K → List R) (s : JoinedSt K L R),
      joinedIsEnd s = true → joinedIsEnd (joinedInc rm s) = true) ∧
    (∀ s : DirSt, dirIsEnd s = true → dirIsEnd (dirInc s) = true) := by
  refine ⟨?_, ?_, ?_, ?_, ?_, ?_, ?_, ?_⟩
  · intro α s h
    simp [vecIsEnd] at h
    simp [vecIsEnd, vecInc, h]
  · intro s h
    simp [fcIsEnd] at h
    simp [fcIsEnd, fcInc, h]
  · intro D s h
    simp [splitIsEnd] at h
    simp [splitInc, h.1, skipToNext, splitIsEnd]
  · intro α s h
    simp [transIsEnd, vecIsEnd] at h
    simp [transIsEnd, transInc, vecIsEnd, vecInc, h]
  · intro α p s h
    simp [filteredIsEnd, vecIsEnd] at h
    have hend : (vecInc s).is_end = true := by simp [vecInc, h]
    constructor
    · rw [filteredInc, skipInvalid, if_pos hend]
    · simpa [filteredIsEnd, vecIsEnd]
  · intro K A s h
    simp [aggIsEnd] at h ⊢
    simp [aggInc]
    omega
  · intro K L R rm s h
    simp [joinedIsEnd] at h ⊢
    rw [joinedInc]
    split
    · simpa
    · simp [advanceToNextValid, h]
  · intro s h
    simp [dirIsEnd] at h
    rw [dirInc, h]
    exact skipNonRegular_keeps_end _

/-- C9 witness: the monotonicity statements applied at concrete ended
cursors. -/
theorem c9_end_is_monotone_witness :
    vecIsEnd (vecInc (⟨[], true⟩ : VecSt Nat)) = true ∧
    fcIsEnd (fcInc ⟨[], none, "", true⟩) = true ∧
    splitIsEnd (splitInc [','] ⟨[], []⟩) = true ∧
    dirIsEnd (dirInc ⟨[], true⟩) = true :=
  ⟨c9_end_is_monotone.1 Nat ⟨[], true⟩ rfl,
   c9_end_is_monotone.2.1 ⟨[], none, "", true⟩ rfl,
   c9_end_is_monotone.2.2.1 [','] ⟨[], []⟩ rfl,
   c9_end_is_monotone.2.2.2.2.2.2.2 ⟨[], true⟩ rfl⟩

/-- C10: when a file opens but its first getline yields nothing (empty file)
or an empty first line, open_next_file advances the path iterator twice: the
rest of that file is discarded and the next pending path `g` is skipped
without ever being opened — the result does not depend on `g` at all. -/
theorem c10_empty_first_line_skips_next_path :
    ∀ (ls : List String) (g : Option (List String)) (rest : List (Option (List String))),
      ls.head? = none ∨ ls.head? = some "" →
      openNextFile (some ls :: g :: rest) = openNextFile rest := by
  intro ls g rest h
  cases ls with
  | nil => rw [openNextFile]; rfl
  | cons l ls =>
    have hl : l = "" := by
      rcases h with h | h
      · simp at h
      · simpa using h
    rw [openNextFile, if_pos hl]
    rfl

/-- C10 witness: a file whose only line is empty makes the reader skip the
following path (here a perfectly readable file) entirely. -/
theorem c10_empty_first_line_skips_next_path_witness :
    openNextFile [some [""], some ["good line"]] = openNextFile [] :=
  c10_empty_first_line_skips_next_path [""] (some ["good line"]) [] (Or.inr rfl)

/-- C1 (failing input): a single openable file whose getline results are
"a", "", "b" (file content "a\n\nb").  The stream emits the empty middle
line: operator++ has no empty-line check, so the source does emit an empty
string, contradicting the skip-empty policy of the spec. -/
theorem c1_line_reader_emits_midfile_empty_line :
    fcCollect (fcBegin [some ["a", "", "b"]]) = some ["a", "", "b"] := by
  simp [fcBegin, fcCollect, fcDeref, fcInc, openNextFile]

/-- C7: after the in-memory cursor has signalled end, a dereference is the
unchecked read `(*data)[index]` at an out-of-range index — undefined
behaviour returning arbitrary data, not a raised error (modelled `none`) —
while the file-content cursor does throw on a dereference at end. -/
theorem c7_deref_after_end_unchecked :
    vecIsEnd (vecInc (vecBegin [42])) = true ∧
    vecDeref (vecInc (vecBegin [42])) = none ∧
    fcDeref ⟨[], none, "", true⟩ =
      Except.error "Attempted to dereference invalid file iterator" := by
  refine ⟨rfl, rfl, ?_⟩
  simp [fcDeref]

/-- Unfolding of the transformed collect loop on a cursor holding at least
one element. -/
theorem collectTransformed_cons (f : σ → α → α × σ) (x : α) (xs : List α) (st : σ) :
    collectTransformed f ⟨x :: xs, false⟩ st =
      (collectTransformed f ⟨xs, xs.isEmpty⟩ (f st x).2).map
        fun r => ((f st x).1 :: r.1, r.2) := by
  have hv : vecInc ⟨x :: xs, false⟩ = ⟨xs, xs.isEmpty⟩ := by
    cases xs <;> simp [vecInc]
  rw [collectTransformed, hv]
  cases hc : collectTransformed f ⟨xs, xs.isEmpty⟩ (f st x).2 with
  | none => simp [hc]
  | some r =>
    obtain ⟨ys, st2⟩ := r
    simp [hc]

/-- The transformed collect loop at an ended cursor. -/
theorem collectTransformed_end (f : σ → α → α × σ) (rem : List α) (st : σ) :
    collectTransformed f ⟨rem, true⟩ st = some ([], st) := by
  rw [collectTransformed]
  simp

/-- On a NON-EMPTY in-memory source, collecting the transformed stream is
exactly the once-per-element stateful map. -/
theorem collectTransformed_eq_statefulMap (f : σ → α → α × σ) :
    ∀ (xs : List α), xs ≠ [] → ∀ st : σ,
      collectTransformed f (vecBegin xs) st = some (statefulMap f xs st) := by
  intro xs
  induction xs with
  | nil => intro h; exact absurd rfl h
  | cons x xs ih =>
    intro _ st
    rw [vecBegin, collectTransformed_cons, statefulMap]
    cases hxs : xs with
    | nil =>
      simp [collectTransformed_end, statefulMap]
    | cons y t =>
      have he : (y :: t).isEmpty = false := rfl
      rw [he]
      have := ih (by rw [hxs]; exact List.cons_ne_nil y t) (f st x).2
      rw [vecBegin, hxs] at this
      rw [this]
      simp

/-- A transform whose state logs its arguments records exactly the input
list, in order, one entry per element. -/
theorem statefulMap_log (g : α → α) :
    ∀ (xs log0 : List α),
      statefulMap (fun log x => (g x, log ++ [x])) xs log0 = (xs.map g, log0 ++ xs) := by
  intro xs
  induction xs with
  | nil => intro log0; simp [statefulMap]
  | cons x xs ih =>
    intro log0
    simp [statefulMap, ih]

/-- C2 counterexample is below; C4 counterexample: on the EMPTY in-memory
source the claim fails: the vector cursor is constructed with is_end false,
so the collect loop runs once and dereferences (*data)[0] out of range (UB,
modelled none) instead of yielding the empty list of results. -/
theorem c4_transform_empty_source_counterexample :
    collectTransformed (fun (s x : Nat) => (x * x, s + 1)) (vecBegin ([] : List Nat)) 0
      ≠ some (statefulMap (fun (s x : Nat) => (x * x, s + 1)) ([] : List Nat) 0) := by
  rw [collectTransformed]
  simp [vecBegin, statefulMap]

/-- C4 (amended to non-empty sources): for every function f and every
NON-EMPTY in-memory source xs, collecting transform(f) over source(xs)
yields exactly the stateful map of f over xs — f invoked exactly once per
element, at emission time, observing the elements in stream order — and in
particular a logging f records precisely xs. -/
theorem c4_transform_exactly_once_on_nonempty :
    ∀ (σ α : Type) (f : σ → α → α × σ) (xs : List α) (st : σ), xs ≠ [] →
      collectTransformed f (vecBegin xs) st = some (statefulMap f xs st) ∧
      ∀ g : α → α,
        (collectTransformed (fun (log : List α) x => (g x, log ++ [x])) (vecBegin xs)
            ([] : List α)).map Prod.snd = some xs := by
  intro σ α f xs st h
  refine ⟨collectTransformed_eq_statefulMap f xs h st, fun g => ?_⟩
  rw [collectTransformed_eq_statefulMap _ xs h, statefulMap_log]
  simp

/-- C4 witness: the amended claim at the concrete source [1, 2, 3]. -/
theorem c4_transform_exactly_once_witness :
    collectTransformed (fun (s x : Nat) => (x + s, s + x)) (vecBegin [1, 2, 3]) 0
      = some (statefulMap (fun (s x : Nat) => (x + s, s + x)) [1, 2, 3] 0) ∧
    ∀ g : Nat → Nat,
      (collectTransformed (fun (log : List Nat) x => (g x, log ++ [x])) (vecBegin [1, 2, 3])
          ([] : List Nat)).map Prod.snd = some [1, 2, 3] :=
  c4_transform_exactly_once_on_nonempty Nat Nat (fun s x => (x + s, s + x)) [1, 2, 3] 0
    (by decide)

/-- A mid-element return of the scan consumes at least one character. -/
theorem scanLine_inl_length (D : List Char) :
    ∀ (e acc tok rest : List Char),
      scanLine D e acc = Sum.inl (tok, rest) → rest.length < e.length := by
  intro e
  induction e with
  | nil => intro acc tok rest h; simp [scanLine] at h
  | cons c cs ih =>
    intro acc tok rest h
    rw [scanLine] at h
    split at h
    · split at h
      · exact Nat.lt_succ_of_lt (ih _ _ _ h)
      · simp only [Sum.inl.injEq, Prod.mk.injEq] at h
        obtain ⟨-, rfl⟩ := h
        exact Nat.lt_succ_self _
    · exact Nat.lt_succ_of_lt (ih _ _ _ h)

/-- A mid-element scan return agrees with the per-element tokenizer: the
returned token is the next token, and scanning resumes on the suffix. -/
theorem scanLine_inl_spec (D : List Char) :
    ∀ (e acc tok rest : List Char),
      scanLine D e acc = Sum.inl (tok, rest) →
        specTokensAux D acc e = tok :: specTokensAux D [] rest := by
  intro e
  induction e with
  | nil => intro acc tok rest h; simp [scanLine] at h
  | cons c cs ih =>
    intro acc tok rest h
    rw [scanLine] at h
    rw [specTokensAux]
    by_cases hc : c ∈ D
    · rw [if_pos hc] at h
      rw [if_pos hc]
      by_cases hacc : acc = []
      · rw [if_pos hacc] at h
        rw [if_pos hacc]
        rw [hacc] at h
        exact ih _ _ _ h
      · rw [if_neg hacc] at h
        rw [if_neg hacc]
        simp only [Sum.inl.injEq, Prod.mk.injEq] at h
        obtain ⟨rfl, rfl⟩ := h
        rfl
    · rw [if_neg hc] at h
      rw [if_neg hc]
      exact ih _ _ _ h

/-- An end-of-element scan return agrees with the per-element tokenizer:
what remains of the element contributes exactly the token in progress. -/
theorem scanLine_inr_spec (D : List Char) :
    ∀ (e acc acc2 : List Char),
      scanLine D e acc = Sum.inr acc2 →
        specTokensAux D acc e = if acc2 = [] then [] else [acc2] := by
  intro e
  induction e with
  | nil =>
    intro acc acc2 h
    rw [scanLine] at h
    simp only [Sum.inr.injEq] at h
    subst h
    rfl
  | cons c cs ih =>
    intro acc acc2 h
    rw [scanLine] at h
    rw [specTokensAux]
    by_cases hc : c ∈ D
    · rw [if_pos hc] at h
      rw [if_pos hc]
      by_cases hacc : acc = []
      · rw [if_pos hacc] at h
        rw [if_pos hacc]
        rw [hacc] at h
        exact ih _ _ h
      · rw [if_neg hacc] at h
        simp at h
    · rw [if_neg hc] at h
      rw [if_neg hc]
      exact ih _ _ h

/-- The collected output of the split adapter equals the concatenation of
the per-element tokenizations: element boundaries are hard token boundaries
(the claimed no-gluing property), and the final token of the last element is
emitted. -/
theorem splitCollect_eq_flat (D : List Char) :
    ∀ (elems : List (List Char)),
      splitCollect D (skipToNext D elems) = elems.flatMap (specTokens D) := by
  have main : ∀ (n : Nat) (elems : List (List Char)), splitNu elems ≤ n →
      splitCollect D (skipToNext D elems) = elems.flatMap (specTokens D) := by
    intro n
    induction n with
    | zero =>
      intro elems h
      cases elems with
      | nil =>
        rw [skipToNext, splitCollect]
        simp [splitIsEnd]
      | cons e es => simp [splitNu] at h
    | succ n ihn =>
      intro elems h
      cases elems with
      | nil =>
        rw [skipToNext, splitCollect]
        simp [splitIsEnd]
      | cons e es =>
        rw [skipToNext]
        cases hsc : scanLine D e [] with
        | inl p =>
          obtain ⟨tok, rest⟩ := p
          have hlen := scanLine_inl_length D e [] tok rest hsc
          have hspec := scanLine_inl_spec D e [] tok rest hsc
          show splitCollect D ⟨rest :: es, tok⟩ = _
          rw [splitCollect, dif_neg (by simp [splitIsEnd])]
          show tok :: splitCollect D (skipToNext D (rest :: es)) = _
          rw [ihn (rest :: es) (by simp only [splitNu] at h ⊢; omega)]
          simp [specTokens, hspec]
        | inr acc =>
          have hspec := scanLine_inr_spec D e [] acc hsc
          show splitCollect D (if acc = [] then skipToNext D es else ⟨es, acc⟩) = _
          by_cases hacc : acc = []
          · rw [if_pos hacc]
            rw [ihn es (by simp only [splitNu] at h ⊢; omega)]
            simp [specTokens, hspec, hacc]
          · rw [if_neg hacc]
            rw [splitCollect, dif_neg (by simp [splitIsEnd, hacc])]
            show acc :: splitCollect D (skipToNext D es) = _
            rw [ihn es (by simp only [splitNu] at h ⊢; omega)]
            simp [specTokens, hspec, hacc]
  exact fun elems => main (splitNu elems) elems le_rfl

/-- C3: the split adapter never glues a token across upstream-element
boundaries: its collected output is exactly the concatenation, element by
element, of each element's own tokenization — a token in progress when an
element is exhausted is emitted before any character of the next element is
consumed, and the token in progress when the upstream ends is emitted before
end-of-stream. -/
theorem c3_split_no_cross_element_gluing :
    ∀ (D : List Char) (elems : List (List Char)),
      splitCollect D (splitBegin D elems) = elems.flatMap (specTokens D) := by
  intro D elems
  rw [splitBegin]
  exact splitCollect_eq_flat D elems

/-- Every token of the per-element tokenizer is non-empty and free of
delimiter characters, given the token in progress is. -/
theorem specTokensAux_sound (D : List Char) :
    ∀ (e acc t : List Char), (∀ c ∈ acc, c ∉ D) →
      t ∈ specTokensAux D acc e → t ≠ [] ∧ ∀ c ∈ t, c ∉ D := by
  intro e
  induction e with
  | nil =>
    intro acc t hacc ht
    rw [specTokensAux] at ht
    split at ht
    · simp at ht
    · rename_i hne
      simp at ht
      subst ht
      exact ⟨hne, hacc⟩
  | cons c cs ih =>
    intro acc t hacc ht
    rw [specTokensAux] at ht
    by_cases hc : c ∈ D
    · rw [if_pos hc] at ht
      split at ht
      · exact ih [] t (by simp) ht
      · rename_i hne
        rcases List.mem_cons.mp ht with rfl | ht2
        · exact ⟨hne, hacc⟩
        · exact ih [] t (by simp) ht2
    · rw [if_neg hc] at ht
      refine ih (acc ++ [c]) t ?_ ht
      intro x hx
      rcases List.mem_append.mp hx with hx | hx
      · exact hacc x hx
      · simp at hx
        subst hx
        exact hc

/-- C8: for every delimiter set and every input, no token the split adapter
emits is empty, and no emitted token contains a delimiter character. -/
theorem c8_split_no_empty_no_delimiter_tokens :
    ∀ (D : List Char) (elems : List (List Char)) (t : List Char),
      t ∈ splitCollect D (splitBegin D elems) → t ≠ [] ∧ ∀ c ∈ t, c ∉ D := by
  intro D elems t ht
  rw [splitBegin, splitCollect_eq_flat] at ht
  obtain ⟨e, -, hte⟩ := List.mem_flatMap.mp ht
  exact specTokensAux_sound D e [] t (by simp) hte

/-- C8 witness: splitting "a,b" on "," emits the token "a", which is
non-empty and contains no comma. -/
theorem c8_split_no_empty_witness :
    (['a'] : List Char) ≠ [] ∧ ∀ c ∈ (['a'] : List Char), c ∉ ([','] : List Char) :=
  c8_split_no_empty_no_delimiter_tokens [','] [['a', ',', 'b']] ['a']
    (by rw [splitBegin, splitCollect_eq_flat]; decide)

/-- firstOccurrenceFrom depends on the seen predicate only pointwise. -/
theorem firstOccurrenceFrom_congr [DecidableEq K] :
    ∀ (l : List K) (s1 s2 : K → Bool), (∀ k, s1 k = s2 k) →
      firstOccurrenceFrom s1 l = firstOccurrenceFrom s2 l := by
  intro l
  induction l with
  | nil => intro s1 s2 h; rfl
  | cons a as ih =>
    intro s1 s2 h
    rw [firstOccurrenceFrom, firstOccurrenceFrom, h a]
    cases ha : s2 a with
    | true => simp only [ha, if_true]; exact ih s1 s2 h
    | false =>
      simp only [ha, Bool.false_eq_true, if_false]
      exact congrArg (a :: ·) (ih _ _ (fun q => by rw [h q]))

/-- The key_order built by the aggregation drain extends the given order
with the unseen keys in order of first occurrence. -/
theorem aggLoop_order [DecidableEq K] (initial : A) (f : α → A → A) (key : α → K) :
    ∀ (xs : List α) (m : K → Option A) (order : List K),
      (aggLoop initial f key xs m order).2
        = order ++ firstOccurrenceFrom (fun k => (m k).isSome) (xs.map key) := by
  intro xs
  induction xs with
  | nil => intro m order; simp [aggLoop, firstOccurrenceFrom]
  | cons x xs ih =>
    intro m order
    rw [aggLoop]
    by_cases hseed : (m (key x)).isSome = true
    · simp only [hseed, eq_self_iff_true, if_true]
      rw [ih, List.map_cons, firstOccurrenceFrom]
      simp only [hseed, eq_self_iff_true, if_true]
      refine congrArg (order ++ ·) (firstOccurrenceFrom_congr _ _ _ fun q => ?_)
      by_cases hq : q = key x <;> simp [hq, hseed]
    · have hseedf : (m (key x)).isSome = false := Bool.eq_false_iff.mpr hseed
      simp only [hseedf, Bool.false_eq_true, if_false]
      rw [ih, List.map_cons, firstOccurrenceFrom]
      simp only [hseedf, Bool.false_eq_true, if_false]
      rw [List.append_assoc, List.singleton_append]
      refine congrArg (order ++ ·)
        (congrArg (key x :: ·) (firstOccurrenceFrom_congr _ _ _ fun q => ?_))
      by_cases hq : q = key x <;> simp [hq, hseedf]

/-- Keys emitted by firstOccurrenceFrom were unseen. -/
theorem firstOccurrenceFrom_unseen [DecidableEq K] :
    ∀ (l : List K) (seen : K → Bool) (k : K),
      k ∈ firstOccurrenceFrom seen l → seen k = false := by
  intro l
  induction l with
  | nil => intro seen k h; simp [firstOccurrenceFrom] at h
  | cons a as ih =>
    intro seen k h
    rw [firstOccurrenceFrom] at h
    split at h
    · exact ih _ _ h
    · rename_i ha
      rcases List.mem_cons.mp h with rfl | h2
      · simpa using ha
      · have h3 := ih _ _ h2
        simp at h3
        exact h3.2

/-- firstOccurrenceFrom lists each key at most once. -/
theorem firstOccurrenceFrom_nodup [DecidableEq K] :
    ∀ (l : List K) (seen : K → Bool), (firstOccurrenceFrom seen l).Nodup := by
  intro l
  induction l with
  | nil => intro seen; simp [firstOccurrenceFrom]
  | cons a as ih =>
    intro seen
    rw [firstOccurrenceFrom]
    split
    · exact ih _
    · refine List.nodup_cons.mpr ⟨fun hmem => ?_, ih _⟩
      have h3 := firstOccurrenceFrom_unseen as _ a hmem
      simp at h3

/-- Membership in firstOccurrenceFrom: exactly the unseen keys of the list. -/
theorem firstOccurrenceFrom_mem [DecidableEq K] :
    ∀ (l : List K) (seen : K → Bool) (k : K),
      k ∈ firstOccurrenceFrom seen l ↔ (k ∈ l ∧ seen k = false) := by
  intro l
  induction l with
  | nil => intro seen k; simp [firstOccurrenceFrom]
  | cons a as ih =>
    intro seen k
    rw [firstOccurrenceFrom]
    split
    · rename_i ha
      rw [ih]
      constructor
      · rintro ⟨h1, h2⟩; exact ⟨List.mem_cons_of_mem _ h1, h2⟩
      · rintro ⟨h1, h2⟩
        rcases List.mem_cons.mp h1 with rfl | h3
        · exact absurd ha (by simp [h2])
        · exact ⟨h3, h2⟩
    · rename_i ha
      constructor
      · intro h
        rcases List.mem_cons.mp h with rfl | h2
        · exact ⟨List.mem_cons_self _ _, by simpa using ha⟩
        · obtain ⟨h3, h4⟩ := (ih _ k).mp h2
          simp at h4
          exact ⟨List.mem_cons_of_mem _ h3, h4.2⟩
      · rintro ⟨h1, h2⟩
        by_cases hka : k = a
        · subst hka; exact List.mem_cons_self _ _
        · have h3 : k ∈ as := by
            rcases List.mem_cons.mp h1 with h | h
            · exact absurd h hka
            · exact h
          exact List.mem_cons_of_mem _ ((ih _ k).mpr ⟨h3, by simp [hka, h2]⟩)

/-- C5: aggregate-by-key emits exactly one (key, accumulator) pair per
distinct key of the input, and the pairs appear in the order in which each
key first occurs in the input. -/
theorem c5_aggregate_by_key_first_occurrence :
    ∀ (K A α : Type) (instK : DecidableEq K) (initial : A) (f : α → A → A)
      (key : α → K) (xs : List α),
      (aggregateByKey initial f key xs).map Prod.fst = firstOccurrenceOrder (xs.map key) ∧
      ((aggregateByKey initial f key xs).map Prod.fst).Nodup ∧
      ∀ k, (k ∈ (aggregateByKey initial f key xs).map Prod.fst ↔ k ∈ xs.map key) := by
  intro K A α instK initial f key xs
  have hmap : (aggregateByKey initial f key xs).map Prod.fst
      = (aggLoop initial f key xs (fun _ => none) []).2 := by
    have hgen : ∀ (l : List K) (g : K → A), (l.map fun k => (k, g k)).map Prod.fst = l := by
      intro l g
      induction l with
      | nil => rfl
      | cons a l ih => simp [ih]
    simpa [aggregateByKey] using
      hgen (aggLoop initial f key xs (fun _ => none) []).2
        (fun k => ((aggLoop initial f key xs (fun _ => none) []).1 k).getD initial)
  have horder : (aggLoop initial f key xs (fun _ => none) []).2
      = firstOccurrenceOrder (xs.map key) := by
    rw [aggLoop_order]
    rw [List.nil_append]
    rfl
  rw [hmap, horder]
  refine ⟨rfl, firstOccurrenceFrom_nodup _ _, fun k => ?_⟩
  rw [firstOccurrenceOrder, firstOccurrenceFrom_mem]
  simp

/-- flatMap only depends on the block function pointwise. -/
theorem flatMap_fun_congr {α β : Type} (l : List α) (f g : α → List β)
    (h : ∀ a, f a = g a) : l.flatMap f = l.flatMap g := by
  induction l with
  | nil => rfl
  | cons a l ih => simp [h a, ih]

/-- Lookup in the KV-join right map: what was there, then the key's right
values in right-stream insertion order (push_back appends). -/
theorem buildRightMap_lookup [DecidableEq K] :
    ∀ (rights : List (KV K R)) (m : K → List R) (k : K),
      buildRightMap rights m k = m k ++ rightMatchesKV rights k := by
  intro rights
  induction rights with
  | nil => intro m k; simp [buildRightMap, rightMatchesKV]
  | cons kv rest ih =>
    intro m k
    rw [buildRightMap, ih]
    by_cases hk : kv.key = k
    · subst hk
      simp [rightMatchesKV]
    · have hk2 : ¬(k = kv.key) := fun h => hk h.symm
      simp [rightMatchesKV, hk, hk2]

/-- Lookup in the keyed-join multimap: the key's right elements in REVERSE
insertion order (each emplace links the new node in front of its equal-key
range), then what was there. -/
theorem buildRightMultimap_lookup [DecidableEq K] (rkey : R → K) :
    ∀ (rights : List R) (m : K → List R) (k : K),
      buildRightMultimap rkey rights m k
        = (rightMatchesKeyed rkey rights k).reverse ++ m k := by
  intro rights
  induction rights with
  | nil => intro m k; simp [buildRightMultimap, rightMatchesKeyed]
  | cons v rest ih =>
    intro m k
    rw [buildRightMultimap, ih]
    by_cases hk : rkey v = k
    · simp [multimapEmplace, rightMatchesKeyed, hk]
    · have hk2 : ¬(k = rkey v) := fun h => hk h.symm
      simp [multimapEmplace, rightMatchesKeyed, hk, hk2]

/-- The keyed-join left loop produces one block per left element. -/
theorem joinKeyedLoop_closed (rm : K → List R) (lkey : L → K) :
    ∀ lefts : List L,
      joinKeyedLoop rm lkey lefts = lefts.flatMap fun l => joinRows (rm (lkey l)) l := by
  intro lefts
  induction lefts with
  | nil => rfl
  | cons l ls ih =>
    rw [joinKeyedLoop, ih, List.flatMap_cons]
    rfl

/-- The KV-join collect loop at an exhausted left cursor. -/
theorem joinedCollect_at_end (rm : K → List R) (rights : List R) (idx : Nat) :
    joinedCollect rm (⟨[], rights, idx⟩ : JoinedSt K L R) = some [] := by
  rw [joinedCollect]
  simp

/-- advanceToNextValid at a live left cursor caches the key's entry. -/
theorem advanceToNextValid_cons (rm : K → List R) (l : KV K L) (ls : List (KV K L))
    (rights : List R) (idx : Nat) :
    advanceToNextValid rm ⟨l :: ls, rights, idx⟩ = ⟨l :: ls, rm l.key, idx⟩ := rfl

/-- An unmatched left element yields its single None row, then the loop
moves to the next left element. -/
theorem joinedCollect_step_none (rm : K → List R) (l : KV K L) (ls : List (KV K L)) :
    joinedCollect rm ⟨l :: ls, [], 0⟩
      = (joinedCollect rm (advanceToNextValid rm ⟨ls, [], 0⟩)).map
          ((⟨l, none⟩ : JoinResult (KV K L) R) :: ·) := by
  rw [joinedCollect, dif_neg (by simp)]
  rfl

/-- A left element with cached right matches yields one row per remaining
match, in cache order, then the loop moves to the next left element. -/
theorem joinedCollect_step_rights (rm : K → List R) (l : KV K L) (ls : List (KV K L))
    (rs : List R) :
    ∀ i : Nat, (hi : i < rs.length) →
      joinedCollect rm ⟨l :: ls, rs, i⟩
        = (joinedCollect rm (advanceToNextValid rm ⟨ls, rs, 0⟩)).map
            (((rs.drop i).map fun r => (⟨l, some r⟩ : JoinResult (KV K L) R)) ++ ·) := by
  have hne : ∀ i, i < rs.length → rs.isEmpty = false := by
    intro i hi
    cases rs with
    | nil => simp at hi
    | cons a as => rfl
  have main : ∀ (n i : Nat), rs.length - i ≤ n → (hi : i < rs.length) →
      joinedCollect rm ⟨l :: ls, rs, i⟩
        = (joinedCollect rm (advanceToNextValid rm ⟨ls, rs, 0⟩)).map
            (((rs.drop i).map fun r => (⟨l, some r⟩ : JoinResult (KV K L) R)) ++ ·) := by
    intro n
    induction n with
    | zero => intro i h hi; omega
    | succ n ihn =>
      intro i h hi
      have hd : joinedDeref (⟨l :: ls, rs, i⟩ : JoinedSt K L R)
          = some ⟨l, some (rs.get ⟨i, hi⟩)⟩ := by
        show (if rs.isEmpty = true then some (⟨l, none⟩ : JoinResult (KV K L) R)
            else (rs.get? i).map fun r => (⟨l, some r⟩ : JoinResult (KV K L) R))
          = some ⟨l, some (rs.get ⟨i, hi⟩)⟩
        rw [hne i hi]
        simp [List.get?_eq_getElem?, List.getElem?_eq_getElem hi, List.get_eq_getElem]
      rw [joinedCollect, dif_neg (by simp)]
      split
      · rename_i heq
        rw [hd] at heq
        cases heq
      · rename_i row heq
        rw [hd] at heq
        have hrow : row = ⟨l, some (rs.get ⟨i, hi⟩)⟩ := by
          injection heq with h3
          exact h3.symm
        subst hrow
        by_cases hlast : i + 1 < rs.length
        · rw [show joinedInc rm (⟨l :: ls, rs, i⟩ : JoinedSt K L R) = ⟨l :: ls, rs, i + 1⟩ from by
            rw [joinedInc, if_pos (by simp [hne i hi, hlast])]]
          rw [ihn (i + 1) (by omega) hlast]
          rw [Option.map_map]
          refine congrArg
            (fun f => Option.map f
              (joinedCollect rm (advanceToNextValid rm ⟨ls, rs, 0⟩))) ?_
          funext out
          show (⟨l, some (rs.get ⟨i, hi⟩)⟩ : JoinResult (KV K L) R) ::
              (((rs.drop (i + 1)).map fun r =>
                (⟨l, some r⟩ : JoinResult (KV K L) R)) ++ out)
            = ((rs.drop i).map fun r => (⟨l, some r⟩ : JoinResult (KV K L) R)) ++ out
          rw [List.drop_eq_getElem_cons hi, List.map_cons, List.cons_append,
            List.get_eq_getElem]
        · rw [show joinedInc rm (⟨l :: ls, rs, i⟩ : JoinedSt K L R)
              = advanceToNextValid rm ⟨ls, rs, 0⟩ from by
            rw [joinedInc, if_neg (by simp [hlast])]
            rfl]
          have hi1 : i + 1 = rs.length := by omega
          refine congrArg
            (fun f => Option.map f
              (joinedCollect rm (advanceToNextValid rm ⟨ls, rs, 0⟩))) ?_
          funext out
          simp [List.drop_eq_getElem_cons hi, hi1, List.get_eq_getElem]
  exact fun i hi => main (rs.length - i) i le_rfl hi

/-- The collected KV join does not depend on the stale rights cache when the
left cursor advances. -/
theorem joinedCollect_advance_irrel (rm : K → List R) (ls : List (KV K L))
    (rs rs2 : List R) :
    joinedCollect rm (advanceToNextValid rm ⟨ls, rs, 0⟩)
      = joinedCollect rm (advanceToNextValid rm ⟨ls, rs2, 0⟩) := by
  cases ls with
  | nil => exact (joinedCollect_at_end rm rs 0).trans (joinedCollect_at_end rm rs2 0).symm
  | cons a as => rfl

/-- Closed form of the KV join: one block per left element, the block being
the map entry of its key mapped to rows, or the single None row. -/
theorem joinedCollect_closed (rm : K → List R) :
    ∀ lefts : List (KV K L),
      joinedCollect rm (joinedBegin rm lefts)
        = some (lefts.flatMap fun l => joinRows (rm l.key) l) := by
  intro lefts
  induction lefts with
  | nil => exact joinedCollect_at_end rm [] 0
  | cons l ls ih =>
    rw [joinedBegin, advanceToNextValid_cons]
    cases hrs : rm l.key with
    | nil =>
      rw [joinedCollect_step_none]
      rw [show advanceToNextValid rm (⟨ls, [], 0⟩ : JoinedSt K L R)
          = joinedBegin rm ls from rfl]
      rw [ih]
      simp [joinRows, hrs]
    | cons r rs2 =>
      rw [joinedCollect_step_rights rm l ls (r :: rs2) 0 (by simp)]
      rw [joinedCollect_advance_irrel rm ls (r :: rs2) []]
      rw [show advanceToNextValid rm (⟨ls, [], 0⟩ : JoinedSt K L R)
          = joinedBegin rm ls from rfl]
      rw [ih]
      simp [joinRows, hrs]

/-- C2 counterexample: the key-function join at rkey = (· / 10) with the
right stream [71, 72] (both of key 7) and the left element 7.  The code
emits the right matches in REVERSE insertion order (72 then 71), refuting
the claimed per-key insertion order at this concrete input. -/
theorem c2_keyed_join_reverse_order_counterexample :
    joinKeyed (fun l : Nat => l) (fun r : Nat => r / 10) [71, 72] [7]
      = [⟨7, some 72⟩, ⟨7, some 71⟩] ∧
    joinKeyed (fun l : Nat => l) (fun r : Nat => r / 10) [71, 72] [7]
      ≠ [⟨7, some 71⟩, ⟨7, some 72⟩] := by
  constructor <;> decide

/-- C2 (amended): for each left element in upstream order, one row per
matching right value, where the KV-keyed join emits a key's matches in the
right stream's insertion order, while the key-function join emits them in
the REVERSE of the right stream's insertion order (the order its
unordered_multimap yields an equal-key range). -/
theorem c2_join_order_per_key :
    (∀ (K L R : Type) (instK : DecidableEq K) (lefts : List (KV K L))
        (rights : List (KV K R)),
      joinedCollect (buildRightMap rights fun _ => [])
          (joinedBegin (buildRightMap rights fun _ => []) lefts)
        = some (lefts.flatMap fun l => joinRows (rightMatchesKV rights l.key) l)) ∧
    (∀ (K L R : Type) (instK : DecidableEq K) (lkey : L → K) (rkey : R → K)
        (rights : List R) (lefts : List L),
      joinKeyed lkey rkey rights lefts
        = lefts.flatMap fun l =>
            joinRows ((rightMatchesKeyed rkey rights (lkey l)).reverse) l) := by
  constructor
  · intro K L R instK lefts rights
    rw [joinedCollect_closed]
    refine congrArg some (flatMap_fun_congr _ _ _ fun l => ?_)
    rw [buildRightMap_lookup]
    simp
  · intro K L R instK lkey rkey rights lefts
    rw [joinKeyed, joinKeyedLoop_closed]
    refine flatMap_fun_congr _ _ _ fun l => ?_
    rw [buildRightMultimap_lookup]
    simp

/-- A block has exactly max(1, k) rows for k matches. -/
theorem joinRows_length (ms : List R) (l : L) :
    (joinRows ms l).length = max 1 ms.length := by
  cases ms with
  | nil => rfl
  | cons r rs2 => simp [joinRows]

/-- Every block contains a row for its left element. -/
theorem joinRows_left_mem (ms : List R) (l : L) :
    ∃ rv, (⟨l, rv⟩ : JoinResult L R) ∈ joinRows ms l := by
  cases ms with
  | nil => exact ⟨none, by simp [joinRows]⟩
  | cons r rs2 => exact ⟨some r, by simp [joinRows]⟩

/-- C6: both join shapes are left-outer: the output is one block per left
element in order; a left element whose key has k matching right elements
produces exactly max(1, k) rows, the k = 0 block being the single None row;
every left element appears in the output at least once, and no error is
raised (the KV join collect succeeds, the keyed join is total). -/
theorem c6_join_left_outer :
    (∀ (K L R : Type) (instK : DecidableEq K) (lefts : List (KV K L))
        (rights : List (KV K R)),
      ∃ out,
        joinedCollect (buildRightMap rights fun _ => [])
            (joinedBegin (buildRightMap rights fun _ => []) lefts) = some out ∧
        out = lefts.flatMap (fun l => joinRows (rightMatchesKV rights l.key) l) ∧
        (∀ l : KV K L, (joinRows (rightMatchesKV rights l.key) l).length
            = max 1 (rightMatchesKV rights l.key).length) ∧
        (∀ l : KV K L, rightMatchesKV rights l.key = [] →
            joinRows (rightMatchesKV rights l.key) l = [⟨l, none⟩]) ∧
        (∀ l ∈ lefts, ∃ rv, (⟨l, rv⟩ : JoinResult (KV K L) R) ∈ out)) ∧
    (∀ (K L R : Type) (instK : DecidableEq K) (lkey : L → K) (rkey : R → K)
        (rights : List R) (lefts : List L),
      (∀ l : L, ((joinRows ((rightMatchesKeyed rkey rights (lkey l)).reverse) l).length
          = max 1 (rightMatchesKeyed rkey rights (lkey l)).length)) ∧
      (∀ l : L, rightMatchesKeyed rkey rights (lkey l) = [] →
          joinRows ((rightMatchesKeyed rkey rights (lkey l)).reverse) l = [⟨l, none⟩]) ∧
      (∀ l ∈ lefts, ∃ rv, (⟨l, rv⟩ : JoinResult L R) ∈ joinKeyed lkey rkey rights lefts)) := by
  constructor
  · intro K L R instK lefts rights
    refine ⟨lefts.flatMap fun l => joinRows (rightMatchesKV rights l.key) l,
      ?_, rfl, ?_, ?_, ?_⟩
    · rw [joinedCollect_closed]
      refine congrArg some (flatMap_fun_congr _ _ _ fun l => ?_)
      rw [buildRightMap_lookup]
      simp
    · intro l
      exact joinRows_length _ _
    · intro l h
      rw [h]
      rfl
    · intro l hl
      obtain ⟨rv, hrv⟩ := joinRows_left_mem (rightMatchesKV rights l.key) l
      exact ⟨rv, List.mem_flatMap.mpr ⟨l, hl, hrv⟩⟩
  · intro K L R instK lkey rkey rights lefts
    refine ⟨?_, ?_, ?_⟩
    · intro l
      rw [joinRows_length]
      simp
    · intro l h
      rw [h]
      rfl
    · intro l hl
      obtain ⟨rv, hrv⟩ :=
        joinRows_left_mem ((rightMatchesKeyed rkey rights (lkey l)).reverse) l
      refine ⟨rv, ?_⟩
      rw [joinKeyed, joinKeyedLoop_closed]
      refine List.mem_flatMap.mpr ⟨l, hl, ?_⟩
      rw [buildRightMultimap_lookup]
      simpa using hrv

end StlAdapters
